import Mathlib

/-!
Verification development for the Bitcoin-Trust-Analysis repository.

The Python sources (`src/data_preprocessing.py`, `src/network_analysis_utils.py`)
are shallowly embedded below.  Numeric values computed by Python floats are
modelled as exact rationals (`ℚ`); real square roots appearing inside
`networkx.eigenvector_centrality` are modelled with `Real.sqrt`.  Python's
`None` is modelled by `Option.none`, and Python exceptions by the explicit
error type `PyErr` threaded through `Except`.
-/

namespace BitcoinTrust

/-- Python exceptions that the embedded code can raise.  `networkXError` is
`networkx.exception.NetworkXError`, `powerIterationFailedConvergence` is the
exception raised by `nx.eigenvector_centrality` after `max_iter` iterations,
`networkXPointlessConcept` is raised by `nx.eigenvector_centrality` on an empty
graph, `keyError` models a Python `KeyError`, `valueError` a `ValueError`,
and `zeroDivisionError` a `ZeroDivisionError`. -/
inductive PyErr where
  | networkXError
  | powerIterationFailedConvergence
  | networkXPointlessConcept
  | keyError
  | valueError
  | zeroDivisionError
deriving DecidableEq, Repr

/-- One row of the edge DataFrame: columns FROM_NODE, TO_NODE, TRUST_INDEX.
Node ids are natural numbers; the trust index (already signed or raw) is an
exact rational standing for the Python float. -/
structure Row where
  from_node : ℕ
  to_node : ℕ
  trust_index : ℚ
deriving DecidableEq, Repr

/-- Embeds `pandas.Series.unique`: the values in order of first appearance,
each kept once. -/
def pdUnique : List ℕ → List ℕ
  | [] => []
  | a :: l => a :: pdUnique (l.filter (fun b => b ≠ a))
termination_by l => l.length
decreasing_by
  simp only [List.length_cons]
  exact Nat.lt_succ_of_le (List.length_filter_le _ _)

/-- Embeds `select_negative_nodes` (src/data_preprocessing.py, lines 111-137):
`data_negative = data[data['TRUST_INDEX'] < 0]` keeps the rows with negative
trust index in order, and `data_negative['TO_NODE'].unique()` returns their
TO_NODE values in order of first appearance. -/
def select_negative_nodes (data : List Row) : List ℕ :=
  pdUnique ((data.filter (fun r => r.trust_index < 0)).map Row.to_node)

/-- Embeds `numpy.mean` applied to a list of floats: `np.mean([])` evaluates
to the float `nan` (with a runtime warning, not an exception), modelled here
as `none`; on a non-empty list it is the exact arithmetic mean. -/
def npMean (xs : List ℚ) : Option ℚ :=
  if xs.isEmpty then none else some (xs.sum / xs.length)

/-- Embeds `calculate_mean_centrality_negative_nodes`
(src/network_analysis_utils.py, lines 236-275): for each measure key of the
input dict (a map measure-name → (node → value)), take `np.mean` of the list
of values.  The function body has no raise statement: it always returns a
dict with exactly the input's keys. -/
def calculate_mean_centrality_negative_nodes
    (negative_nodes_centralities : List (String × List (ℕ × ℚ))) :
    List (String × Option ℚ) :=
  negative_nodes_centralities.map (fun p => (p.1, npMean (p.2.map Prod.snd)))

/-- A directed graph as `networkx.DiGraph` keeps it: node list in insertion
order without duplicates, edge list of ordered pairs in insertion order
without duplicates. -/
structure Graph where
  nodes : List ℕ
  edges : List (ℕ × ℕ)
deriving DecidableEq, Repr

/-- Well-formedness invariants that every `networkx` graph maintains:
no duplicate nodes, no duplicate directed edges, and edge endpoints are
registered nodes. -/
def Graph.WF (g : Graph) : Prop :=
  g.nodes.Nodup ∧ g.edges.Nodup ∧ ∀ e ∈ g.edges, e.1 ∈ g.nodes ∧ e.2 ∈ g.nodes

instance (g : Graph) : Decidable g.WF := by
  unfold Graph.WF; infer_instance

/-- Embeds `DiGraph.add_node`: appends the node unless already present. -/
def addNode (g : Graph) (v : ℕ) : Graph :=
  { g with nodes := if v ∈ g.nodes then g.nodes else g.nodes ++ [v] }

/-- Embeds `DiGraph.add_edge` without attributes: registers both endpoints,
then appends the directed edge unless already present. -/
def addEdge (g : Graph) (u v : ℕ) : Graph :=
  let g1 := addNode (addNode g u) v
  { g1 with edges := if (u, v) ∈ g1.edges then g1.edges else g1.edges ++ [(u, v)] }

/-- The local variable `negative_nodes_graph` built inside
`create_negative_nodes_subgraph` (src/network_analysis_utils.py, lines
140-146): every node of `negative_node_list` is added, then every edge of
`graph` with an endpoint in the list is added (unweighted). -/
def negative_nodes_graph_built (graph : Graph) (negative_node_list : List ℕ) : Graph :=
  (graph.edges.filter (fun e => e.1 ∈ negative_node_list ∨ e.2 ∈ negative_node_list)).foldl
    (fun h e => addEdge h e.1 e.2)
    (negative_node_list.foldl addNode ⟨[], []⟩)

/-- Embeds `create_negative_nodes_subgraph` (src/network_analysis_utils.py,
lines 110-146).  The Python function constructs `negative_nodes_graph`
(see `negative_nodes_graph_built`) but contains no `return` statement, so
control falls off the end of the function and it returns `None`. -/
def create_negative_nodes_subgraph (graph : Graph) (negative_node_list : List ℕ) :
    Option Graph :=
  let _negative_nodes_graph := negative_nodes_graph_built graph negative_node_list
  none

/-- An edge-attribute dictionary: attribute name → value. -/
abbrev Attrs := List (String × ℚ)

/-- A weighted directed graph as built by `nx.from_pandas_edgelist`: nodes in
insertion order, and for each ordered pair of endpoints (first-insertion
order) its attribute dictionary. -/
structure WGraph where
  nodes : List ℕ
  edges : List ((ℕ × ℕ) × Attrs)
deriving DecidableEq, Repr

/-- Embeds `DiGraph.add_edge(u, v, TRUST_INDEX=val)`: endpoints are
registered, and the attribute dict of the ordered pair `(u, v)` is created or
updated (existing pair keeps its position, its TRUST_INDEX entry is
overwritten). -/
def addEdgeW (g : WGraph) (u v : ℕ) (val : ℚ) : WGraph :=
  let ns1 := if u ∈ g.nodes then g.nodes else g.nodes ++ [u]
  let ns2 := if v ∈ ns1 then ns1 else ns1 ++ [v]
  if (u, v) ∈ g.edges.map Prod.fst then
    { nodes := ns2,
      edges := g.edges.map (fun p =>
        if p.1 = (u, v) then (p.1, [("TRUST_INDEX", val)]) else p) }
  else
    { nodes := ns2, edges := g.edges ++ [((u, v), [("TRUST_INDEX", val)])] }

/-- Embeds `create_direct_network` (src/data_preprocessing.py, lines 139-164):
`nx.from_pandas_edgelist(data, 'FROM_NODE', 'TO_NODE', edge_attr='TRUST_INDEX',
create_using=nx.DiGraph())` iterates the rows in order and performs
`add_edge(row.FROM_NODE, row.TO_NODE, TRUST_INDEX=row.TRUST_INDEX)` for each;
the attribute is stored under the column name `TRUST_INDEX`. -/
def create_direct_network (data : List Row) : WGraph :=
  data.foldl (fun g r => addEdgeW g r.from_node r.to_node r.trust_index) ⟨[], []⟩

/-- Association-list lookup for edge attributes. -/
def attrLookup (a : Attrs) (key : String) : Option ℚ :=
  match a with
  | [] => none
  | (k, v) :: rest => if k = key then some v else attrLookup rest key

/-- A pandas DataFrame, column-oriented: column name → column values, in
column order.  Timestamps and period labels are stored as exact rationals. -/
abbrev Frame := List (String × List ℚ)

/-- Reads a column (`data[c]`); empty if the column is absent. -/
def colGet (f : Frame) (c : String) : List ℚ :=
  match f with
  | [] => []
  | (k, v) :: rest => if k = c then v else colGet rest c

/-- Embeds the in-place column assignment `data[c] = v`: replaces the column
if present, otherwise appends it as the last column. -/
def colSet (f : Frame) (c : String) (v : List ℚ) : Frame :=
  if c ∈ f.map Prod.fst then
    f.map (fun p => if p.1 = c then (c, v) else p)
  else f ++ [(c, v)]

/-- Embeds `data.drop(c, axis=1)`: a new frame without column `c`. -/
def colDrop (f : Frame) (c : String) : Frame :=
  f.filter (fun p => p.1 ≠ c)

/-- Minimum of a non-empty list given as head and tail. -/
def listMin (x : ℚ) (xs : List ℚ) : ℚ := xs.foldl min x

/-- Maximum of a non-empty list given as head and tail. -/
def listMax (x : ℚ) (xs : List ℚ) : ℚ := xs.foldl max x

/-- The symmetric widening amount used by `pd.cut` when all values are equal:
0.1% of `|min|`, or 0.001 when `min = 0` (for datetime input pandas uses one
time unit instead — any positive amount yields the same labels). -/
def cutD (mn : ℚ) : ℚ := if mn = 0 then 1 / 1000 else |mn| / 1000

/-- The `i`-th bin boundary of `pd.cut(x, bins=n)` (see `cutBoundaries`).
When `min < max`, the boundaries are `min + i*(max-min)/n` for `i = 0..n`
with the first boundary then lowered by 0.1% of the range so the minimum is
included; when `min = max`, the range is first widened symmetrically by
`cutD min` and then split into `n` equal bins. -/
def cutF (mn mx : ℚ) (n : ℕ) (i : ℕ) : ℚ :=
  if mn = mx then (mn - cutD mn) + i * (2 * cutD mn) / n
  else if i = 0 then mn - (mx - mn) / 1000
  else mn + i * (mx - mn) / n

/-- Bin boundaries computed by `pd.cut(x, bins=n)` (right-closed bins,
`numpy.linspace` over the data range): `cutF` evaluated at `0..n`. -/
def cutBoundaries (mn mx : ℚ) (n : ℕ) : List ℚ :=
  (List.range (n + 1)).map (cutF mn mx n)

/-- The 0-based label `pd.cut` assigns to value `x` (with `labels=False`,
`right=True`): the index `i` such that `boundaries[i] < x ≤ boundaries[i+1]`,
i.e. the number of boundaries strictly below `x`, minus one. -/
def cutCode (bnds : List ℚ) (x : ℚ) : ℕ :=
  (bnds.filter (fun b => b < x)).length - 1

/-- Embeds `pd.cut(xs, bins=n, labels=False)` for a non-empty numeric series:
each value is mapped to the index of its bin. -/
def pdCutLabels (xs : List ℚ) (n : ℕ) : List ℕ :=
  match xs with
  | [] => []
  | x :: rest =>
      let bnds := cutBoundaries (listMin x rest) (listMax x rest) n
      (x :: rest).map (cutCode bnds)

/-- Embeds `divide_data_into_periods` (src/data_preprocessing.py, lines
74-109).  `data['PERIOD'] = pd.cut(data['TIME'], bins=num_periods,
labels=False)` mutates the caller's DataFrame in place by adding (or
replacing) the PERIOD column; `data = data.drop('TIME', axis=1)` then binds a
new frame without the TIME column, which is returned.  The first component of
the result is the caller's DataFrame after the call, the second is the
returned DataFrame. -/
def divide_data_into_periods (data : Frame) (num_periods : ℕ) : Frame × Frame :=
  let codes := (pdCutLabels (colGet data "TIME") num_periods).map (fun c => (c : ℚ))
  let mutated := colSet data "PERIOD" codes
  (mutated, colDrop mutated "TIME")

/-- Successor list of a node in a directed graph (`G[u]` in networkx). -/
def succList (g : Graph) (u : ℕ) : List ℕ :=
  (g.edges.filter (fun e => e.1 = u)).map Prod.snd

/-- In-degree of a node: number of directed edges ending at it. -/
def inDeg (g : Graph) (u : ℕ) : ℕ :=
  (g.edges.filter (fun e => e.2 = u)).length

/-- Out-degree of a node: number of directed edges leaving it. -/
def outDeg (g : Graph) (u : ℕ) : ℕ :=
  (g.edges.filter (fun e => e.1 = u)).length

/-- Degree of a node of a `DiGraph` (`G.degree(u)` in networkx): in-degree
plus out-degree, a self-loop counting twice. -/
def deg (g : Graph) (u : ℕ) : ℕ := inDeg g u + outDeg g u

/-- Embeds `nx.degree_centrality`: for a graph with more than one node each
node is mapped to `degree / (n - 1)`; a graph with at most one node maps each
of its nodes to `1` (no error is raised). -/
def degree_centrality (g : Graph) : List (ℕ × ℚ) :=
  if g.nodes.length ≤ 1 then g.nodes.map (fun v => (v, 1))
  else g.nodes.map (fun v => (v, (deg g v : ℚ) / ((g.nodes.length : ℚ) - 1)))

/-- Number of directed walks of length exactly `d` from `s` to `t`.  A walk
of minimal length is a shortest path, so for `d` the distance from `s` to `t`
this is the number of shortest paths `σ_{st}`. -/
def nWalks (g : Graph) (t : ℕ) : ℕ → ℕ → ℕ
  | 0, s => if s = t then 1 else 0
  | d + 1, s => ((succList g s).map (fun u => nWalks g t d u)).sum

/-- Embeds `nx.shortest_path_length` on the unweighted directed graph:
the least walk length from `s` to `t` (`none` if `t` is unreachable).  A
shortest walk repeats no node, so only lengths below the node count matter. -/
def shortest_path_length (g : Graph) (s t : ℕ) : Option ℕ :=
  (List.range g.nodes.length).find? (fun d => decide (0 < nWalks g t d s))

/-- Number of shortest paths from `s` to `t` (0 if unreachable). -/
def sigma (g : Graph) (s t : ℕ) : ℕ :=
  match shortest_path_length g s t with
  | none => 0
  | some d => nWalks g t d s

/-- Number of shortest paths from `s` to `t` passing through `v`: paths
realizing `d(s,v) + d(v,t) = d(s,t)` factor through `v`. -/
def sigmaThrough (g : Graph) (s v t : ℕ) : ℕ :=
  match shortest_path_length g s v, shortest_path_length g v t,
      shortest_path_length g s t with
  | some d1, some d2, some d =>
      if d1 + d2 = d then nWalks g v d1 s * nWalks g t d2 v else 0
  | _, _, _ => 0

/-- Unnormalized betweenness of `v`: the sum over ordered pairs `(s, t)` of
distinct nodes, both different from `v`, of the fraction of shortest
`s`-`t` paths through `v` (pairs with no path contribute 0).  This is the
defining quantity that `nx.betweenness_centrality` computes by Brandes'
accumulation. -/
def bcRaw (g : Graph) (v : ℕ) : ℚ :=
  (g.nodes.map (fun s =>
    (g.nodes.map (fun t =>
      if s ≠ t ∧ s ≠ v ∧ t ≠ v ∧ sigma g s t ≠ 0 then
        (sigmaThrough g s v t : ℚ) / (sigma g s t : ℚ)
      else 0)).sum)).sum

/-- Embeds `nx.betweenness_centrality` with its defaults (`normalized=True`,
`weight=None`, `endpoints=False`) on a directed graph: the raw betweenness
rescaled by `1/((n-1)(n-2))` when `n > 2` (no rescaling otherwise). -/
def betweenness_centrality (g : Graph) : List (ℕ × ℚ) :=
  let n := g.nodes.length
  let scale : ℚ := if 2 < n then 1 / (((n : ℚ) - 1) * ((n : ℚ) - 2)) else 1
  g.nodes.map (fun v => (v, scale * bcRaw g v))

/-- Node → real-value association list (a Python dict keyed by nodes). -/
abbrev RAssoc := List (ℕ × ℝ)

/-- Dict read `x[u]` with default 0 (every read in the power iteration hits
an existing key, so the default is never observable on well-formed input). -/
noncomputable def rlookup (x : RAssoc) (u : ℕ) : ℝ :=
  match x with
  | [] => 0
  | (k, v) :: rest => if k = u then v else rlookup rest u

/-- Start vector of `nx.eigenvector_centrality`: `nstart = {v: 1}` divided by
its sum, i.e. `1/n` for each node. -/
noncomputable def ecInit (g : Graph) : RAssoc :=
  g.nodes.map (fun v => (v, (1 : ℝ) / (g.nodes.length : ℝ)))

/-- One spreading pass of the power iteration: starting from a copy of
`xlast`, every edge `(u, v)` adds `xlast[u] * w` to `x[v]`; the call passes
`weight=None`, so `w = 1`.  Net effect per node: old value plus the sum of
the old values of its in-neighbors. -/
noncomputable def ecSpread (g : Graph) (x : RAssoc) : RAssoc :=
  x.map (fun p =>
    (p.1, p.2 + ((g.edges.filter (fun e => e.2 = p.1)).map (fun e => rlookup x e.1)).sum))

/-- Euclidean norm used by the iteration (`math.hypot(*x.values())`), with
the Python fallback `or 1` when the norm is zero. -/
noncomputable def ecNorm (x : RAssoc) : ℝ :=
  let h := Real.sqrt ((x.map (fun p => p.2 ^ 2)).sum)
  if h = 0 then 1 else h

/-- Divides every entry by the (nonzero-adjusted) Euclidean norm. -/
noncomputable def ecNormalize (x : RAssoc) : RAssoc :=
  let h := ecNorm x
  x.map (fun p => (p.1, p.2 / h))

/-- Convergence measure `sum(abs(x[n] - xlast[n]) for n in x)`; the two
vectors are keyed identically and in the same order. -/
noncomputable def ecDiff (x y : RAssoc) : ℝ :=
  ((x.zip y).map (fun p => |p.1.2 - p.2.2|)).sum

/-- The bounded power iteration of `nx.eigenvector_centrality`: up to
`max_iter` rounds of spread-normalize; returns as soon as the L1 distance to
the previous vector is below `n * tol` (`tol = 1.0e-6`), and raises
`PowerIterationFailedConvergence` when the bound is exhausted. -/
noncomputable def ecLoop (g : Graph) (x : RAssoc) : ℕ → Except PyErr RAssoc
  | 0 => .error .powerIterationFailedConvergence
  | k + 1 =>
      let y := ecNormalize (ecSpread g x)
      if ecDiff y x < (g.nodes.length : ℝ) * (1 / 1000000) then .ok y
      else ecLoop g y k

/-- Embeds `nx.eigenvector_centrality` with its defaults (`max_iter=100`,
`tol=1.0e-6`, `nstart=None`, `weight=None`): raises
`NetworkXPointlessConcept` on the empty graph, otherwise runs the power
iteration from the uniform start vector. -/
noncomputable def eigenvector_centrality (g : Graph) : Except PyErr RAssoc :=
  if g.nodes.length = 0 then .error .networkXPointlessConcept
  else ecLoop g (ecInit g) 100

/-- The dict comprehension `{k: m[k] for k in l}`: iterates `l`, raising
`KeyError` at the first key absent from `m`; duplicate keys keep their first
position (the value rewritten is identical). -/
def pyDictComp {α : Type} (m : List (ℕ × α)) : List ℕ → Except PyErr (List (ℕ × α))
  | [] => .ok []
  | k :: ks =>
      match (m.lookup k : Option α) with
      | none => .error .keyError
      | some v =>
          match pyDictComp m ks with
          | .error e => .error e
          | .ok rest => .ok ((k, v) :: rest.filter (fun p => p.1 ≠ k))

/-- The dictionary returned by `calculate_centralities_negative_nodes`: one
node-keyed map per centrality measure, in the source's key order. -/
structure Centralities where
  degree_centrality : List (ℕ × ℚ)
  betweenness_centrality : List (ℕ × ℚ)
  eigenvector_centrality : List (ℕ × ℝ)

/-- Embeds `calculate_centralities_negative_nodes`
(src/network_analysis_utils.py, lines 188-234): computes the three centrality
dicts over the whole graph (eigenvector centrality may raise), then filters
each to the keys in `negative_nodes_list` (raising `KeyError` on a key absent
from the graph). -/
noncomputable def calculate_centralities_negative_nodes
    (graph : Graph) (negative_nodes_list : List ℕ) : Except PyErr Centralities := do
  let dc := degree_centrality graph
  let bc := betweenness_centrality graph
  let ec ← eigenvector_centrality graph
  let dcf ← pyDictComp dc negative_nodes_list
  let bcf ← pyDictComp bc negative_nodes_list
  let ecf ← pyDictComp ec negative_nodes_list
  return ⟨dcf, bcf, ecf⟩

/-- Every ordered pair of nodes is joined by a directed path (for a directed
graph this is strong connectivity, the precondition of `nx.diameter`). -/
def StronglyConnected (g : Graph) : Prop :=
  ∀ u ∈ g.nodes, ∀ v ∈ g.nodes, (shortest_path_length g u v).isSome

instance (g : Graph) : Decidable (StronglyConnected g) := by
  unfold StronglyConnected; infer_instance

/-- Eccentricity value of a node: its largest distance to any node (with the
unreachable case defaulted to 0; only used under strong connectivity). -/
def eccVal (g : Graph) (u : ℕ) : ℕ :=
  (g.nodes.map (fun v => (shortest_path_length g u v).getD 0)).foldl max 0

/-- Diameter value: maximum eccentricity (only used under strong
connectivity). -/
def diamVal (g : Graph) : ℕ :=
  (g.nodes.map (eccVal g)).foldl max 0

/-- Embeds `nx.diameter` on a directed graph: `ValueError` on the empty graph
(`max()` of an empty sequence), `NetworkXError` when some node cannot reach
some node (infinite path length), otherwise the maximum eccentricity. -/
def diameterE (g : Graph) : Except PyErr ℕ :=
  if g.nodes.isEmpty then .error .valueError
  else if StronglyConnected g then .ok (diamVal g)
  else .error .networkXError

/-- Average shortest path length of a strongly connected directed graph with
at least two nodes: the sum of `d(s, t)` over ordered pairs of distinct nodes
divided by `n(n-1)` (`nx.average_shortest_path_length`; the function returns
0 for a single-node graph). -/
def asplVal (g : Graph) : ℚ :=
  ((g.nodes.map (fun s =>
    ((g.nodes.filter (fun t => t ≠ s)).map
      (fun t => ((shortest_path_length g s t).getD 0 : ℚ))).sum)).sum) /
    ((g.nodes.length : ℚ) * ((g.nodes.length : ℚ) - 1))

/-- Embeds `nx.density`: 0 when there are no edges or at most one node, else
`m / (n(n-1))` for a directed graph. -/
def density (g : Graph) : ℚ :=
  if g.edges.length = 0 ∨ g.nodes.length ≤ 1 then 0
  else (g.edges.length : ℚ) / ((g.nodes.length : ℚ) * ((g.nodes.length : ℚ) - 1))

/-- The dict returned by `calculate_network_summary_statistics` for a
directed input, with `None`-able entries as `Option`.  The
`clustering_coefficient` entry (a float computed by `nx.average_clustering`,
whose value no claim touches) is not carried; its only control-flow effect,
the `ZeroDivisionError` on an empty graph, is modelled in the function. -/
structure NetworkStats where
  number_of_nodes : ℕ
  number_of_edges : ℕ
  modularity : Option ℚ
  connected_components : Option ℕ
  edge_density : ℚ
  diameter : Option ℕ
  average_shortest_path_length : Option ℚ
deriving DecidableEq, Repr

/-- Embeds `calculate_network_summary_statistics`
(src/network_analysis_utils.py, lines 6-107) on a directed graph
(`nx.is_directed` true, so modularity and connected components are set to
`None`).  `nx.average_clustering` raises `ZeroDivisionError` on the empty
graph; `nx.diameter` is wrapped in `try/except nx.exception.NetworkXError`
with `None` recorded on failure; the average shortest path length is computed
only when the diameter is not `None` (hence on a strongly connected graph,
where `nx.average_shortest_path_length` returns 0 for a single node and the
exact mean distance otherwise).  The degree-histogram plotting at the end
does not affect the returned dict. -/
def calculate_network_summary_statistics (network_data : Graph) :
    Except PyErr NetworkStats :=
  if network_data.nodes.isEmpty then .error .zeroDivisionError
  else
    match diameterE network_data with
    | .error .networkXError =>
        .ok { number_of_nodes := network_data.nodes.length
              number_of_edges := network_data.edges.length
              modularity := none
              connected_components := none
              edge_density := density network_data
              diameter := none
              average_shortest_path_length := none }
    | .error e => .error e
    | .ok d =>
        .ok { number_of_nodes := network_data.nodes.length
              number_of_edges := network_data.edges.length
              modularity := none
              connected_components := none
              edge_density := density network_data
              diameter := some d
              average_shortest_path_length :=
                some (if network_data.nodes.length = 1 then 0 else asplVal network_data) }

/-! ### Concrete inputs used by counterexamples and witnesses -/

/-- Single-node graph (node 1, no edges). -/
def g1 : Graph := ⟨[1], []⟩

/-- Two-node graph with the two opposite edges 1→2 and 2→1. -/
def g2 : Graph := ⟨[1, 2], [(1, 2), (2, 1)]⟩

/-- Two-node graph with the single edge 1→2 (not strongly connected). -/
def gPath : Graph := ⟨[1, 2], [(1, 2)]⟩

/-- The four-edge example graph used in the source docstrings. -/
def exGraph : Graph := ⟨[1, 2, 3], [(1, 2), (1, 3), (2, 3), (3, 1)]⟩

/-- The four-row example edge DataFrame used in the source docstrings. -/
def exRows : List Row := [⟨1, 2, 1⟩, ⟨2, 3, -1⟩, ⟨3, 4, 1⟩, ⟨4, 1, -1⟩]

/-! ### Lemmas about `pdUnique` -/

theorem pdUnique_mem (a : ℕ) : ∀ l : List ℕ, a ∈ pdUnique l ↔ a ∈ l := by
  intro l
  induction l using pdUnique.induct with
  | case1 => simp [pdUnique]
  | case2 b l ih =>
      rw [pdUnique]
      by_cases hab : a = b
      · subst hab; simp
      · simp only [List.mem_cons, ih, List.mem_filter, hab, false_or, decide_eq_true_eq]
        constructor
        · exact fun h => h.1
        · exact fun h => ⟨h, hab⟩

theorem pdUnique_nodup : ∀ l : List ℕ, (pdUnique l).Nodup := by
  intro l
  induction l using pdUnique.induct with
  | case1 => simp [pdUnique]
  | case2 b l ih =>
      rw [pdUnique]
      refine List.nodup_cons.mpr ⟨fun hb => ?_, ih⟩
      have := (pdUnique_mem b _).mp hb
      simp at this

/-! ### Claim theorems: C1, C3, C4, C7 -/

/-- C1: the spec claims `create_negative_nodes_subgraph` RETURNS a new graph
containing every node of the negative set plus every edge of the input graph
touching it.  The function indeed builds exactly that graph, but it has no
`return` statement, so it returns `None`: at the docstring's own input the
result is `none`, while the graph that was built and then dropped is the one
the claim describes. -/
theorem C1_subgraph_is_built_but_none_is_returned :
    (∀ (g : Graph) (l : List ℕ), create_negative_nodes_subgraph g l = none) ∧
    negative_nodes_graph_built exGraph [2, 1] =
      ⟨[2, 1, 3], [(1, 2), (1, 3), (2, 3), (3, 1)]⟩ := by
  exact ⟨fun g l => rfl, by decide⟩

/-- C3: on the docstring's own example rows, `create_direct_network` performs
the claimed round-trip on ordered pairs (all four pairs, in order, with
last-write-wins as shown by the separate two-row duplicate test), but every
edge stores its sign under the attribute name `TRUST_INDEX`; no attribute
named `weight` exists, contradicting the claim (and the function's doctest,
which displays `{'weight': 1}`). -/
theorem C3_sign_stored_under_trust_index_not_weight :
    create_direct_network exRows =
      ⟨[1, 2, 3, 4],
        [((1, 2), [("TRUST_INDEX", 1)]), ((2, 3), [("TRUST_INDEX", -1)]),
         ((3, 4), [("TRUST_INDEX", 1)]), ((4, 1), [("TRUST_INDEX", -1)])]⟩ ∧
    (∀ p ∈ (create_direct_network exRows).edges, attrLookup p.2 "weight" = none) ∧
    create_direct_network [⟨1, 2, 1⟩, ⟨1, 2, -1⟩] =
      ⟨[1, 2], [((1, 2), [("TRUST_INDEX", -1)])]⟩ := by
  refine ⟨by decide, ?_, by decide⟩
  decide

/-- C4: `select_negative_nodes` returns exactly the TO_NODE ids of rows with
negative trust index, without duplicates, and the empty input yields the
empty result. -/
theorem C4_select_negative_nodes_correct :
    (∀ (data : List Row) (id : ℕ),
        id ∈ select_negative_nodes data ↔
          ∃ r ∈ data, r.trust_index < 0 ∧ r.to_node = id) ∧
    (∀ data : List Row, (select_negative_nodes data).Nodup) ∧
    select_negative_nodes [] = [] := by
  refine ⟨fun data id => ?_, fun data => pdUnique_nodup _,
    by simp [select_negative_nodes, pdUnique]⟩
  unfold select_negative_nodes
  rw [pdUnique_mem]
  simp only [List.mem_map, List.mem_filter, decide_eq_true_eq]
  constructor
  · rintro ⟨r, ⟨hr, hneg⟩, hto⟩
    exact ⟨r, hr, hneg, hto⟩
  · rintro ⟨r, hr, hneg, hto⟩
    exact ⟨r, ⟨hr, hneg⟩, hto⟩

/-- C7 counterexample: on an input whose only measure has an empty value map,
`calculate_mean_centrality_negative_nodes` does not fail — it returns a dict
mapping the measure to `np.mean([])`, the float NaN (modelled `none`). -/
theorem C7_counterexample_empty_measure_returns_nan :
    calculate_mean_centrality_negative_nodes [("degree_centrality", [])] =
      [("degree_centrality", none)] := rfl

/-- C7 amended: for every input containing a measure with an empty value map,
the function returns normally (one entry per input measure, keys preserved)
and maps that measure to NaN (`none`) instead of raising. -/
theorem C7_empty_measure_yields_nan
    (m : List (String × List (ℕ × ℚ))) (s : String)
    (h : (s, ([] : List (ℕ × ℚ))) ∈ m) :
    (s, (none : Option ℚ)) ∈ calculate_mean_centrality_negative_nodes m ∧
    (calculate_mean_centrality_negative_nodes m).map Prod.fst = m.map Prod.fst := by
  constructor
  · exact List.mem_map.mpr ⟨(s, []), h, by simp [npMean]⟩
  · simp [calculate_mean_centrality_negative_nodes]

/-- C7 witness: the amended theorem applied at the concrete one-measure
input. -/
theorem C7_empty_measure_yields_nan_witness :
    ("degree_centrality", (none : Option ℚ)) ∈
        calculate_mean_centrality_negative_nodes [("degree_centrality", [])] ∧
    (calculate_mean_centrality_negative_nodes
        [("degree_centrality", [])]).map Prod.fst = ["degree_centrality"] :=
  C7_empty_measure_yields_nan [("degree_centrality", [])] "degree_centrality"
    (by simp)

/-! ### Lemmas about `pd.cut` binning (claims C5, C6) -/

theorem foldl_min_le_init : ∀ (l : List ℚ) (a : ℚ), l.foldl min a ≤ a := by
  intro l
  induction l with
  | nil => simp
  | cons b l ih =>
      intro a
      exact le_trans (ih (min a b)) (min_le_left a b)

theorem foldl_min_le_mem : ∀ (l : List ℚ) (a t : ℚ), t ∈ l → l.foldl min a ≤ t := by
  intro l
  induction l with
  | nil => simp
  | cons b l ih =>
      intro a t ht
      rcases List.mem_cons.mp ht with h | h
      · subst h
        exact le_trans (foldl_min_le_init l (min a t)) (min_le_right a t)
      · exact ih (min a b) t h

theorem init_le_foldl_max : ∀ (l : List ℚ) (a : ℚ), a ≤ l.foldl max a := by
  intro l
  induction l with
  | nil => simp
  | cons b l ih =>
      intro a
      exact le_trans (le_max_left a b) (ih (max a b))

theorem mem_le_foldl_max : ∀ (l : List ℚ) (a t : ℚ), t ∈ l → t ≤ l.foldl max a := by
  intro l
  induction l with
  | nil => simp
  | cons b l ih =>
      intro a t ht
      rcases List.mem_cons.mp ht with h | h
      · subst h
        exact le_trans (le_max_right a t) (init_le_foldl_max l (max a t))
      · exact ih (max a b) t h

theorem foldl_min_const : ∀ (l : List ℚ) (a : ℚ), (∀ t ∈ l, t = a) → l.foldl min a = a := by
  intro l
  induction l with
  | nil => simp
  | cons b l ih =>
      intro a h
      have hb : b = a := h b (by simp)
      subst hb
      rw [List.foldl_cons, min_self]
      exact ih b fun t ht => h t (by simp [ht])

theorem foldl_max_const : ∀ (l : List ℚ) (a : ℚ), (∀ t ∈ l, t = a) → l.foldl max a = a := by
  intro l
  induction l with
  | nil => simp
  | cons b l ih =>
      intro a h
      have hb : b = a := h b (by simp)
      subst hb
      rw [List.foldl_cons, max_self]
      exact ih b fun t ht => h t (by simp [ht])

theorem listMin_le {x : ℚ} {xs : List ℚ} {t : ℚ} (ht : t ∈ x :: xs) : listMin x xs ≤ t := by
  rcases List.mem_cons.mp ht with h | h
  · subst h; exact foldl_min_le_init xs t
  · exact foldl_min_le_mem xs x t h

theorem le_listMax {x : ℚ} {xs : List ℚ} {t : ℚ} (ht : t ∈ x :: xs) : t ≤ listMax x xs := by
  rcases List.mem_cons.mp ht with h | h
  · subst h; exact init_le_foldl_max xs t
  · exact mem_le_foldl_max xs x t h

theorem cutD_pos (mn : ℚ) : 0 < cutD mn := by
  unfold cutD
  by_cases h : mn = 0
  · rw [if_pos h]; norm_num
  · rw [if_neg h]
    have : 0 < |mn| := abs_pos.mpr h
    positivity

theorem cutF_strictMonoOn (mn mx : ℚ) (n : ℕ) (hm : mn ≤ mx) (hn : 1 ≤ n)
    {i j : ℕ} (hij : i < j) (hjn : j ≤ n) :
    cutF mn mx n i < cutF mn mx n j := by
  have hn0 : (0 : ℚ) < (n : ℚ) := by exact_mod_cast hn
  have hijq : (i : ℚ) < (j : ℚ) := by exact_mod_cast hij
  unfold cutF
  by_cases h : mn = mx
  · rw [if_pos h, if_pos h]
    have hd : 0 < cutD mn := cutD_pos mn
    have h1 : (i : ℚ) * (2 * cutD mn) < (j : ℚ) * (2 * cutD mn) :=
      mul_lt_mul_of_pos_right hijq (by linarith)
    have h2 : (i : ℚ) * (2 * cutD mn) / n < (j : ℚ) * (2 * cutD mn) / n :=
      (div_lt_div_iff_of_pos_right hn0).mpr h1
    linarith
  · rw [if_neg h, if_neg h]
    have hlt : mn < mx := lt_of_le_of_ne hm h
    have hsub : 0 < mx - mn := by linarith
    have hj : j ≠ 0 := by omega
    by_cases hi : i = 0
    · rw [if_pos hi, if_neg hj]
      have hjq : (0 : ℚ) < (j : ℚ) := by exact_mod_cast Nat.pos_of_ne_zero hj
      have h1 : 0 < (j : ℚ) * (mx - mn) / n :=
        div_pos (mul_pos hjq hsub) hn0
      have h2 : 0 < (mx - mn) / 1000 := div_pos hsub (by norm_num)
      linarith
    · rw [if_neg hi, if_neg hj]
      have h1 : (i : ℚ) * (mx - mn) < (j : ℚ) * (mx - mn) :=
        mul_lt_mul_of_pos_right hijq hsub
      have h2 : (i : ℚ) * (mx - mn) / n < (j : ℚ) * (mx - mn) / n :=
        (div_lt_div_iff_of_pos_right hn0).mpr h1
      linarith

theorem cutF_zero_lt (mn mx : ℚ) (n : ℕ) (hm : mn ≤ mx) : cutF mn mx n 0 < mn := by
  unfold cutF
  by_cases h : mn = mx
  · rw [if_pos h]
    have hd : 0 < cutD mn := cutD_pos mn
    simp only [Nat.cast_zero, zero_mul, zero_div, add_zero]
    linarith
  · rw [if_neg h, if_pos rfl]
    have hlt : mn < mx := lt_of_le_of_ne hm h
    have : 0 < (mx - mn) / 1000 := div_pos (by linarith) (by norm_num)
    linarith

theorem le_cutF_last (mn mx : ℚ) (n : ℕ) (hm : mn ≤ mx) (hn : 1 ≤ n) :
    mx ≤ cutF mn mx n n := by
  have hnq : (0 : ℚ) < (n : ℚ) := by exact_mod_cast hn
  have hn0 : ((n : ℚ)) ≠ 0 := ne_of_gt hnq
  unfold cutF
  by_cases h : mn = mx
  · rw [if_pos h]
    have hd : 0 < cutD mn := cutD_pos mn
    have hcalc : (n : ℚ) * (2 * cutD mn) / n = 2 * cutD mn := by
      rw [mul_comm, mul_div_assoc, div_self hn0, mul_one]
    rw [hcalc]
    linarith [h.symm.le]
  · have hne : n ≠ 0 := by omega
    rw [if_neg h, if_neg hne]
    have hcalc : (n : ℚ) * (mx - mn) / n = mx - mn := by
      rw [mul_comm, mul_div_assoc, div_self hn0, mul_one]
    rw [hcalc]
    linarith

/-- Counting indices below a threshold in `List.range`. -/
theorem countP_range_ltK (K N : ℕ) :
    (List.range N).countP (fun i => decide (i < K)) = min K N := by
  induction N with
  | zero => simp
  | succ m ih =>
      rw [List.range_succ, List.countP_append, ih]
      by_cases h : m < K
      · simp [h]; omega
      · simp [h]; omega

/-- For a predicate downward closed on `[0, N)`, membership below the count
characterizes the predicate. -/
theorem countP_downward_closed (N : ℕ) (p : ℕ → Prop) [DecidablePred p]
    (hdc : ∀ i j : ℕ, i ≤ j → j < N → p j → p i) :
    ∀ i < N, (p i ↔ i < (List.range N).countP (fun i => decide (p i))) := by
  intro i hiN
  constructor
  · intro hpi
    have hsub : List.Sublist (List.range (i + 1)) (List.range N) :=
      List.range_sublist.mpr hiN
    have hle : (List.range (i + 1)).countP (fun j => decide (p j))
        ≤ (List.range N).countP (fun j => decide (p j)) := hsub.countP_le _
    have hall : (List.range (i + 1)).countP (fun j => decide (p j))
        = (List.range (i + 1)).length := by
      rw [List.countP_eq_length]
      intro a ha
      have : a < i + 1 := List.mem_range.mp ha
      exact decide_eq_true (hdc a i (by omega) hiN hpi)
    rw [hall, List.length_range] at hle
    omega
  · intro hik
    by_contra hpi
    have hmono : (List.range N).countP (fun j => decide (p j))
        ≤ (List.range N).countP (fun j => decide (j < i)) := by
      apply List.countP_mono_left
      intro a ha hpa
      have hpa' : p a := of_decide_eq_true hpa
      by_contra hai
      have hai' : ¬ (a < i) := fun hlt => hai (decide_eq_true hlt)
      have hia : i ≤ a := by omega
      exact hpi (hdc i a hia (List.mem_range.mp ha) hpa')
    rw [countP_range_ltK] at hmono
    omega

/-- The length of the filtered boundary list equals a `countP` over the
index range. -/
theorem cutFilter_eq_countP (mn mx : ℚ) (n : ℕ) (t : ℚ) :
    ((cutBoundaries mn mx n).filter (fun b => decide (b < t))).length
      = (List.range (n + 1)).countP (fun i => decide (cutF mn mx n i < t)) := by
  unfold cutBoundaries
  rw [← List.countP_eq_length_filter, List.countP_map]
  rfl

/-- Main property of the `pd.cut` code of a value inside the data range:
it is below `n`, and a boundary is strictly below `t` exactly when its index
is at most the code. -/
theorem cutCode_spec (mn mx : ℚ) (n : ℕ) (hm : mn ≤ mx) (hn : 1 ≤ n)
    (t : ℚ) (ht1 : mn ≤ t) (ht2 : t ≤ mx) :
    cutCode (cutBoundaries mn mx n) t < n ∧
    ∀ i ≤ n, (cutF mn mx n i < t ↔ i < cutCode (cutBoundaries mn mx n) t + 1) := by
  have hdc : ∀ i j : ℕ, i ≤ j → j < n + 1 → cutF mn mx n j < t → cutF mn mx n i < t := by
    intro i j hij hjn hpj
    rcases Nat.lt_or_ge i j with h | h
    · exact lt_trans (cutF_strictMonoOn mn mx n hm hn h (by omega)) hpj
    · have : i = j := by omega
      rw [this]; exact hpj
  have hchar := countP_downward_closed (n + 1) (fun i => cutF mn mx n i < t) hdc
  set k := (List.range (n + 1)).countP (fun i => decide (cutF mn mx n i < t)) with hk
  have hk1 : 1 ≤ k := by
    have h0 : cutF mn mx n 0 < t := lt_of_lt_of_le (cutF_zero_lt mn mx n hm) ht1
    have h0' : 0 < k := (hchar 0 (by omega)).mp h0
    omega
  have hkn : k ≤ n := by
    by_contra hgt
    have hkn' : n < k := by omega
    have hnk : n < n + 1 := by omega
    have hlast : cutF mn mx n n < t := (hchar n hnk).mpr (by omega)
    have hcontra : ¬ (cutF mn mx n n < t) :=
      not_lt.mpr (le_trans ht2 (le_cutF_last mn mx n hm hn))
    exact hcontra hlast
  have hcode : cutCode (cutBoundaries mn mx n) t = k - 1 := by
    unfold cutCode
    rw [cutFilter_eq_countP]
  constructor
  · omega
  · intro i hin
    rw [hcode]
    have hiff : cutF mn mx n i < t ↔ i < k := hchar i (by omega)
    rw [hiff]
    omega

/-! ### Column-access lemmas for the DataFrame model -/

theorem colGet_nil (c : String) : colGet [] c = [] := rfl

theorem colGet_cons (p : String × List ℚ) (rest : Frame) (c : String) :
    colGet (p :: rest) c = if p.1 = c then p.2 else colGet rest c := by
  cases p
  rfl

theorem colGet_replace (c : String) (v : List ℚ) :
    ∀ f : Frame, c ∈ f.map Prod.fst →
      colGet (f.map (fun p => if p.1 = c then (c, v) else p)) c = v := by
  intro f
  induction f with
  | nil => intro h; simp at h
  | cons p rest ih =>
      intro h
      rw [List.map_cons]
      by_cases hp : p.1 = c
      · rw [if_pos hp, colGet_cons, if_pos rfl]
      · rw [if_neg hp, colGet_cons, if_neg hp]
        apply ih
        rw [List.map_cons] at h
        rcases List.mem_cons.mp h with h' | h'
        · exact absurd h'.symm hp
        · exact h'

theorem colGet_append_absent (c : String) (v : List ℚ) :
    ∀ f : Frame, c ∉ f.map Prod.fst → colGet (f ++ [(c, v)]) c = v := by
  intro f
  induction f with
  | nil => intro _; rw [List.nil_append, colGet_cons, if_pos rfl]
  | cons p rest ih =>
      intro h
      have hp : p.1 ≠ c := fun hc => h (by simp [hc])
      rw [List.cons_append, colGet_cons, if_neg hp]
      exact ih (fun hc => h (by rw [List.map_cons]; exact List.mem_cons_of_mem _ hc))

theorem colGet_colSet (f : Frame) (c : String) (v : List ℚ) :
    colGet (colSet f c v) c = v := by
  unfold colSet
  by_cases h : c ∈ f.map Prod.fst
  · rw [if_pos h]
    exact colGet_replace c v f h
  · rw [if_neg h]
    exact colGet_append_absent c v f h

theorem colGet_colDrop (f : Frame) (c c' : String) (h : c ≠ c') :
    colGet (colDrop f c') c = colGet f c := by
  induction f with
  | nil => rfl
  | cons p rest ih =>
      unfold colDrop at ih ⊢
      by_cases hp : p.1 = c'
      · rw [List.filter_cons_of_neg (by simp [hp])]
        rw [colGet_cons, if_neg (by rw [hp]; exact fun hc => h hc.symm)]
        exact ih
      · rw [List.filter_cons_of_pos (by simp [hp])]
        rw [colGet_cons, colGet_cons]
        by_cases hpc : p.1 = c
        · rw [if_pos hpc, if_pos hpc]
        · rw [if_neg hpc, if_neg hpc]
          exact ih

/-- The PERIOD column of the frame returned by `divide_data_into_periods` is
the `pd.cut` label list of the TIME column. -/
theorem divide_period_column (data : Frame) (n : ℕ) :
    colGet (divide_data_into_periods data n).2 "PERIOD"
      = (pdCutLabels (colGet data "TIME") n).map (fun c => (c : ℚ)) := by
  unfold divide_data_into_periods
  rw [colGet_colDrop _ _ _ (by decide), colGet_colSet]

/-- When every value equals `x`, the `pd.cut` label of `x` with `n` bins is
the middle bin `⌈n/2⌉ - 1 = (n+1)/2 - 1` (0-based), not 0. -/
theorem cutCode_degenerate (x : ℚ) (n : ℕ) (hn : 1 ≤ n) :
    cutCode (cutBoundaries x x n) x = (n + 1) / 2 - 1 := by
  unfold cutCode
  rw [cutFilter_eq_countP]
  have hd := cutD_pos x
  have hn0 : (0 : ℚ) < (n : ℚ) := by exact_mod_cast hn
  have hiff : ∀ i : ℕ, (cutF x x n i < x ↔ i < (n + 1) / 2) := by
    intro i
    unfold cutF
    rw [if_pos rfl]
    have hstep : (x - cutD x) + i * (2 * cutD x) / n < x ↔
        (i : ℚ) * (2 * cutD x) / n < cutD x := by
      constructor <;> intro <;> linarith
    rw [hstep, div_lt_iff hn0]
    have h2 : (i : ℚ) * (2 * cutD x) = ((2 * i : ℕ) : ℚ) * cutD x := by
      push_cast; ring
    have h3 : cutD x * n = (n : ℚ) * cutD x := by ring
    rw [h2, h3, mul_lt_mul_right hd, Nat.cast_lt]
    omega
  have hcongr : (List.range (n + 1)).countP (fun i => decide (cutF x x n i < x))
      = (List.range (n + 1)).countP (fun i => decide (i < (n + 1) / 2)) := by
    exact List.countP_congr (fun a _ => by simpa using hiff a)
  rw [hcongr, countP_range_ltK]
  omega

/-- C5 counterexample: with three identical timestamps and three periods,
every row is assigned period 1, not period 0 as the claim states. -/
theorem C5_counterexample_identical_timestamps :
    colGet (divide_data_into_periods [("TIME", [5, 5, 5])] 3).2 "PERIOD" = [1, 1, 1] ∧
    ([1, 1, 1] : List ℚ) ≠ [0, 0, 0] := by
  constructor
  · rw [divide_period_column]
    have h5 : colGet [("TIME", [5, 5, 5])] "TIME" = [5, 5, 5] := rfl
    rw [h5]
    have hmin : listMin (5 : ℚ) [5, 5] = 5 := by
      unfold listMin
      simp
    have hmax : listMax (5 : ℚ) [5, 5] = 5 := by
      unfold listMax
      simp
    have hcode : cutCode (cutBoundaries (listMin (5 : ℚ) [5, 5])
        (listMax (5 : ℚ) [5, 5]) 3) (5 : ℚ) = 1 := by
      rw [hmin, hmax, cutCode_degenerate 5 3 (by norm_num)]
    show ((([5, 5, 5] : List ℚ)).map (cutCode (cutBoundaries (listMin (5 : ℚ) [5, 5])
        (listMax (5 : ℚ) [5, 5]) 3))).map (fun c => (c : ℚ)) = [1, 1, 1]
    rw [List.map_cons, List.map_cons, List.map_cons, List.map_nil, hcode]
    norm_num
  · decide

/-- C5 amended: for N ≥ 1 and non-empty data, every row's assigned period
index lies in [0, N); the bin boundaries are strictly increasing, and a
boundary is strictly below a timestamp exactly when its index is at most the
assigned code (so each timestamp falls in exactly the bin it is assigned —
no gaps, no overlaps); when all timestamps are identical every row is
assigned the same index (N+1)/2 - 1 (which is 0 only for N ≤ 2). -/
theorem C5_period_assignment (data : Frame) (n : ℕ) (hn : 1 ≤ n)
    (x : ℚ) (xs : List ℚ) (hts : colGet data "TIME" = x :: xs) :
    colGet (divide_data_into_periods data n).2 "PERIOD"
      = (pdCutLabels (x :: xs) n).map (fun c => (c : ℚ)) ∧
    (∀ c ∈ pdCutLabels (x :: xs) n, c < n) ∧
    (∀ i j : ℕ, i < j → j ≤ n →
        cutF (listMin x xs) (listMax x xs) n i
          < cutF (listMin x xs) (listMax x xs) n j) ∧
    (∀ t ∈ x :: xs, ∀ i ≤ n,
        (cutF (listMin x xs) (listMax x xs) n i < t ↔
          i < cutCode (cutBoundaries (listMin x xs) (listMax x xs) n) t + 1)) ∧
    ((∀ t ∈ x :: xs, t = x) →
        ∀ c ∈ pdCutLabels (x :: xs) n, c = (n + 1) / 2 - 1) := by
  have hxmem : x ∈ x :: xs := List.mem_cons_self x xs
  have hmle : listMin x xs ≤ listMax x xs :=
    le_trans (listMin_le hxmem) (le_listMax hxmem)
  have hlabels : pdCutLabels (x :: xs) n
      = (x :: xs).map (cutCode (cutBoundaries (listMin x xs) (listMax x xs) n)) := rfl
  refine ⟨?_, ?_, ?_, ?_, ?_⟩
  · rw [divide_period_column, hts]
  · intro c hc
    rw [hlabels] at hc
    obtain ⟨t, ht, rfl⟩ := List.mem_map.mp hc
    exact (cutCode_spec _ _ n hmle hn t (listMin_le ht) (le_listMax ht)).1
  · intro i j hij hjn
    exact cutF_strictMonoOn _ _ n hmle hn hij hjn
  · intro t ht i hin
    exact (cutCode_spec _ _ n hmle hn t (listMin_le ht) (le_listMax ht)).2 i hin
  · intro hconst c hc
    have hxsconst : ∀ t ∈ xs, t = x := fun t ht => hconst t (List.mem_cons_of_mem x ht)
    have hmin : listMin x xs = x := foldl_min_const xs x hxsconst
    have hmax : listMax x xs = x := foldl_max_const xs x hxsconst
    rw [hlabels] at hc
    obtain ⟨t, ht, rfl⟩ := List.mem_map.mp hc
    rw [hconst t ht, hmin, hmax]
    exact cutCode_degenerate x n hn

/-- C5 witness: the amended theorem applied at four distinct timestamps and
two periods. -/
theorem C5_period_assignment_witness :
    colGet (divide_data_into_periods [("TIME", [1, 2, 3, 4])] 2).2 "PERIOD"
      = (pdCutLabels [1, 2, 3, 4] 2).map (fun c => (c : ℚ)) :=
  (C5_period_assignment [("TIME", [1, 2, 3, 4])] 2 (by norm_num) 1 [2, 3, 4]
    (by decide)).1

/-- The caller's frame after `divide_data_into_periods`, when no PERIOD
column was present: the original columns with PERIOD appended. -/
theorem divide_caller_eq (data : Frame) (n : ℕ)
    (h : "PERIOD" ∉ data.map Prod.fst) :
    (divide_data_into_periods data n).1
      = data ++ [("PERIOD",
          (pdCutLabels (colGet data "TIME") n).map (fun c => (c : ℚ)))] := by
  show colSet data "PERIOD"
      ((pdCutLabels (colGet data "TIME") n).map (fun c => (c : ℚ))) = _
  unfold colSet
  rw [if_neg h]

/-- C6 counterexample: after the call, the caller's DataFrame has been
mutated (a PERIOD column was added in place), contradicting the claim that
the caller's collection is left unchanged. -/
theorem C6_counterexample_caller_frame_changed :
    (divide_data_into_periods
        [("FROM_NODE", [1]), ("TO_NODE", [2]), ("TRUST_INDEX", [1]), ("TIME", [5])] 1).1
      ≠ [("FROM_NODE", [1]), ("TO_NODE", [2]), ("TRUST_INDEX", [1]), ("TIME", [5])] := by
  rw [divide_caller_eq _ _ (by decide)]
  intro hcontra
  have hlen := congrArg List.length hcontra
  simp at hlen

/-- C6 amended: `divide_data_into_periods` mutates the caller's DataFrame:
after the call the caller's frame is the original with a PERIOD column
appended (TIME still present), so it differs from the original; only the
returned frame additionally has TIME dropped. -/
theorem C6_divide_mutates_caller (data : Frame) (n : ℕ)
    (h : "PERIOD" ∉ data.map Prod.fst) :
    (divide_data_into_periods data n).1
      = data ++ [("PERIOD",
          (pdCutLabels (colGet data "TIME") n).map (fun c => (c : ℚ)))] ∧
    (divide_data_into_periods data n).1 ≠ data ∧
    (divide_data_into_periods data n).2
      = colDrop ((divide_data_into_periods data n).1) "TIME" ∧
    "TIME" ∉ ((divide_data_into_periods data n).2.map Prod.fst) := by
  have hset := divide_caller_eq data n h
  refine ⟨hset, ?_, rfl, ?_⟩
  · rw [hset]
    intro hcontra
    have hlen : (data ++ [("PERIOD",
        (pdCutLabels (colGet data "TIME") n).map (fun c => (c : ℚ)))]).length
        = data.length := by rw [hcontra]
    simp at hlen
  · intro hmem
    obtain ⟨p, hp, hfst⟩ := List.mem_map.mp hmem
    have : p.1 ≠ "TIME" := by
      have := List.of_mem_filter hp
      simpa using this
    exact this hfst

/-- C6 witness: the amended theorem applied at a concrete four-column
frame. -/
theorem C6_divide_mutates_caller_witness :
    (divide_data_into_periods
        [("FROM_NODE", [1]), ("TO_NODE", [2]), ("TRUST_INDEX", [1]), ("TIME", [5])] 1).1
      = [("FROM_NODE", [1]), ("TO_NODE", [2]), ("TRUST_INDEX", [1]), ("TIME", [5])]
        ++ [("PERIOD", (pdCutLabels (colGet
            [("FROM_NODE", [1]), ("TO_NODE", [2]), ("TRUST_INDEX", [1]), ("TIME", [5])]
            "TIME") 1).map (fun c => (c : ℚ)))] :=
  (C6_divide_mutates_caller
    [("FROM_NODE", [1]), ("TO_NODE", [2]), ("TRUST_INDEX", [1]), ("TIME", [5])] 1
    (by decide)).1

/-! ### Claim C8: diameter and average shortest path in the summary -/

/-- The record that `calculate_network_summary_statistics` returns on every
non-empty directed graph: diameter and average shortest path are present
exactly when the graph is strongly connected. -/
def summaryStats (g : Graph) : NetworkStats :=
  { number_of_nodes := g.nodes.length
    number_of_edges := g.edges.length
    modularity := none
    connected_components := none
    edge_density := density g
    diameter := if StronglyConnected g then some (diamVal g) else none
    average_shortest_path_length :=
      if StronglyConnected g then
        some (if g.nodes.length = 1 then 0 else asplVal g)
      else none }

instance {ε α : Type} [DecidableEq ε] [DecidableEq α] :
    DecidableEq (Except ε α) := fun a b =>
  match a, b with
  | .error e, .error f =>
      if h : e = f then isTrue (by rw [h])
      else isFalse (fun hc => h (by cases hc; rfl))
  | .ok x, .ok y =>
      if h : x = y then isTrue (by rw [h])
      else isFalse (fun hc => h (by cases hc; rfl))
  | .error _, .ok _ => isFalse (fun hc => by cases hc)
  | .ok _, .error _ => isFalse (fun hc => by cases hc)

/-- C8 counterexample: a single-node graph is assigned diameter 0 and
average shortest path length 0 — both present, though the claim says they
are absent for graphs with fewer than 2 nodes. -/
theorem C8_counterexample_single_node :
    calculate_network_summary_statistics g1
      = .ok ⟨1, 0, none, none, 0, some 0, some 0⟩ ∧
    g1.nodes.length < 2 := by
  constructor
  · decide
  · decide

/-- C8 amended: on every non-empty directed graph the call returns normally
(the disconnection failure of `nx.diameter` is caught internally); diameter
and average shortest path length are simultaneously absent, and they are
absent exactly when the graph is not strongly connected — in particular a
single-node graph is strongly connected and gets diameter 0, and the empty
graph raises `ZeroDivisionError` (from `nx.average_clustering`) before the
diameter computation is reached. -/
theorem C8_summary_diameter_aspl (g : Graph) (h : g.nodes ≠ []) :
    calculate_network_summary_statistics g = .ok (summaryStats g) ∧
    ((summaryStats g).diameter = none ↔
      (summaryStats g).average_shortest_path_length = none) ∧
    ((summaryStats g).diameter = none ↔ ¬ StronglyConnected g) := by
  have hne : ¬ (g.nodes.isEmpty = true) := by
    simp [List.isEmpty_iff]
    exact h
  by_cases hsc : StronglyConnected g
  · have hdiam : diameterE g = .ok (diamVal g) := by
      unfold diameterE
      rw [if_neg hne, if_pos hsc]
    refine ⟨?_, ?_, ?_⟩
    · unfold calculate_network_summary_statistics
      rw [if_neg hne, hdiam]
      simp [summaryStats, hsc]
    · simp [summaryStats, hsc]
    · simp [summaryStats, hsc]
  · have hdiam : diameterE g = .error .networkXError := by
      unfold diameterE
      rw [if_neg hne, if_neg hsc]
    refine ⟨?_, ?_, ?_⟩
    · unfold calculate_network_summary_statistics
      rw [if_neg hne, hdiam]
      simp [summaryStats, hsc]
    · simp [summaryStats, hsc]
    · simp [summaryStats, hsc]

/-- C8 witness: the amended theorem applied at the two-node one-edge graph,
which is not strongly connected. -/
theorem C8_summary_diameter_aspl_witness :
    calculate_network_summary_statistics gPath = .ok (summaryStats gPath) ∧
    ((summaryStats gPath).diameter = none ↔
      (summaryStats gPath).average_shortest_path_length = none) ∧
    ((summaryStats gPath).diameter = none ↔ ¬ StronglyConnected gPath) :=
  C8_summary_diameter_aspl gPath (by decide)

/-! ### Lemmas about the centrality pipeline (claims C2, C9, C10) -/

theorem except_bind_ok {ε α β : Type} (a : α) (f : α → Except ε β) :
    (Except.ok a : Except ε α) >>= f = f a := rfl

theorem except_bind_error {ε α β : Type} (e : ε) (f : α → Except ε β) :
    (Except.error e : Except ε α) >>= f = .error e := rfl

theorem ecLoop_succ (g : Graph) (x : RAssoc) (k : ℕ) :
    ecLoop g x (k + 1) =
      (if ecDiff (ecNormalize (ecSpread g x)) x
          < (g.nodes.length : ℝ) * (1 / 1000000) then
        .ok (ecNormalize (ecSpread g x))
      else ecLoop g (ecNormalize (ecSpread g x)) k) := rfl

theorem lookup_mem {α : Type} {m : List (ℕ × α)} {k : ℕ} {v : α}
    (h : m.lookup k = some v) : (k, v) ∈ m := by
  induction m with
  | nil => simp [List.lookup] at h
  | cons p rest ih =>
      obtain ⟨k', v'⟩ := p
      rw [List.lookup] at h
      cases hbe : (k == k') with
      | true =>
          rw [hbe] at h
          injection h with h'
          have hk : k = k' := eq_of_beq hbe
          subst hk
          subst h'
          exact List.mem_cons_self _ _
      | false =>
          rw [hbe] at h
          exact List.mem_cons_of_mem _ (ih h)

theorem pyDictComp_mem {α : Type} {m : List (ℕ × α)} {l : List ℕ}
    {r : List (ℕ × α)} (h : pyDictComp m l = .ok r) : ∀ p ∈ r, p ∈ m := by
  induction l generalizing r with
  | nil =>
      unfold pyDictComp at h
      injection h with h'
      subst h'
      simp
  | cons k ks ih =>
      unfold pyDictComp at h
      cases hl : List.lookup k m with
      | none => rw [hl] at h; cases h
      | some v =>
          rw [hl] at h
          cases hrest : pyDictComp m ks with
          | error e => rw [hrest] at h; cases h
          | ok rest =>
              rw [hrest] at h
              injection h with h'
              subst h'
              intro p hp
              rcases List.mem_cons.mp hp with hp1 | hp2
              · subst hp1
                exact lookup_mem hl
              · exact ih hrest p (List.mem_filter.mp hp2).1

theorem pyDictComp_keys {α : Type} {m : List (ℕ × α)} {l : List ℕ}
    {r : List (ℕ × α)} (h : pyDictComp m l = .ok r) :
    ∀ a : ℕ, a ∈ r.map Prod.fst ↔ a ∈ l := by
  induction l generalizing r with
  | nil =>
      unfold pyDictComp at h
      injection h with h'
      subst h'
      simp
  | cons k ks ih =>
      unfold pyDictComp at h
      cases hl : List.lookup k m with
      | none => rw [hl] at h; cases h
      | some v =>
          rw [hl] at h
          cases hrest : pyDictComp m ks with
          | error e => rw [hrest] at h; cases h
          | ok rest =>
              rw [hrest] at h
              injection h with h'
              subst h'
              intro a
              have ihr := ih hrest a
              simp only [List.map_cons, List.mem_cons, List.mem_map,
                List.mem_filter] at ihr ⊢
              constructor
              · rintro (hak | ⟨p, ⟨hp, hpk⟩, rfl⟩)
                · exact Or.inl hak
                · exact Or.inr (ihr.mp ⟨p, hp, rfl⟩)
              · rintro (hak | haks)
                · exact Or.inl hak
                · by_cases hak' : a = k
                  · exact Or.inl hak'
                  · obtain ⟨p, hp, rfl⟩ := ihr.mpr haks
                    exact Or.inr ⟨p, ⟨hp, by simpa using hak'⟩, rfl⟩

theorem pyDictComp_single {α : Type} (n : ℕ) (v : α) :
    ∀ l : List ℕ, (∀ k ∈ l, k = n) → l ≠ [] →
      pyDictComp [(n, v)] l = .ok [(n, v)] := by
  intro l
  induction l with
  | nil => intro _ hne; exact absurd rfl hne
  | cons k ks ih =>
      intro hall _
      have hk : k = n := hall k (by simp)
      subst hk
      unfold pyDictComp
      rw [show (List.lookup k [(k, v)] : Option α) = some v by simp [List.lookup]]
      cases ks with
      | nil =>
          unfold pyDictComp
          simp
      | cons k2 ks2 =>
          rw [ih (fun a ha => hall a (List.mem_cons_of_mem _ ha)) (by simp)]
          simp

theorem calc_ok_inv {g : Graph} {l : List ℕ} {c : Centralities}
    (h : calculate_centralities_negative_nodes g l = .ok c) :
    (∃ ev, eigenvector_centrality g = .ok ev ∧
        pyDictComp ev l = .ok c.eigenvector_centrality) ∧
    pyDictComp (degree_centrality g) l = .ok c.degree_centrality ∧
    pyDictComp (betweenness_centrality g) l = .ok c.betweenness_centrality := by
  unfold calculate_centralities_negative_nodes at h
  cases hev : eigenvector_centrality g with
  | error e =>
      rw [hev] at h
      rw [except_bind_error] at h
      cases h
  | ok ev =>
      rw [hev] at h
      rw [except_bind_ok] at h
      cases hd : pyDictComp (degree_centrality g) l with
      | error e => rw [hd, except_bind_error] at h; cases h
      | ok dcf =>
          rw [hd, except_bind_ok] at h
          cases hb : pyDictComp (betweenness_centrality g) l with
          | error e => rw [hb, except_bind_error] at h; cases h
          | ok bcf =>
              rw [hb, except_bind_ok] at h
              cases he : pyDictComp ev l with
              | error e => rw [he, except_bind_error] at h; cases h
              | ok ecf =>
                  rw [he, except_bind_ok] at h
                  injection h with h'
                  subst h'
                  exact ⟨⟨ev, rfl, he⟩, rfl, rfl⟩

/-! ### Concrete eigenvector-centrality runs -/

theorem ec_single (g : Graph) (n : ℕ) (hnodes : g.nodes = [n])
    (hedges : g.edges = [] ∨ g.edges = [(n, n)]) :
    eigenvector_centrality g = .ok [(n, (1 : ℝ))] := by
  have hlen : g.nodes.length = 1 := by rw [hnodes]; rfl
  have hinit : ecInit g = [(n, (1 : ℝ))] := by
    unfold ecInit
    rw [hnodes]
    simp
  have hnormalized : ecNormalize (ecSpread g [(n, (1 : ℝ))]) = [(n, (1 : ℝ))] := by
    rcases hedges with he | he
    · have hs : ecSpread g [(n, (1 : ℝ))] = [(n, (1 : ℝ))] := by
        unfold ecSpread
        rw [he]
        simp
      rw [hs]
      unfold ecNormalize ecNorm
      norm_num [Real.sqrt_one]
    · have hs : ecSpread g [(n, (1 : ℝ))] = [(n, (2 : ℝ))] := by
        unfold ecSpread
        rw [he]
        simp [rlookup]
        norm_num
      rw [hs]
      unfold ecNormalize ecNorm
      have h4 : Real.sqrt ((2 : ℝ) ^ 2 + 0) = 2 := by
        rw [add_zero, Real.sqrt_sq (by norm_num : (0 : ℝ) ≤ 2)]
      simp only [List.map_cons, List.map_nil, List.sum_cons, List.sum_nil, h4]
      norm_num
  have hdiff : ecDiff [(n, (1 : ℝ))] [(n, (1 : ℝ))] = 0 := by
    simp [ecDiff]
  unfold eigenvector_centrality
  rw [if_neg (by rw [hlen]; norm_num), hinit]
  rw [show (100 : ℕ) = 99 + 1 from rfl, ecLoop_succ, hnormalized]
  rw [if_pos (by rw [hdiff, hlen]; norm_num)]

theorem ec_g2 : eigenvector_centrality g2
    = .ok [(1, 1 / Real.sqrt 2), (2, 1 / Real.sqrt 2)] := by
  have hs2pos : (0 : ℝ) < Real.sqrt 2 := Real.sqrt_pos.mpr (by norm_num)
  have hs2 : Real.sqrt 2 ≠ 0 := ne_of_gt hs2pos
  have hlen : g2.nodes.length = 2 := rfl
  have hinit : ecInit g2 = [(1, (1 : ℝ) / 2), (2, (1 : ℝ) / 2)] := by
    unfold ecInit
    show [(1, (1:ℝ) / ((2:ℕ) : ℝ)), (2, (1:ℝ) / ((2:ℕ) : ℝ))] = _
    norm_num
  have hspread1 : ecSpread g2 [(1, (1 : ℝ) / 2), (2, (1 : ℝ) / 2)]
      = [(1, (1 : ℝ)), (2, (1 : ℝ))] := by
    unfold ecSpread
    show [(1, (1:ℝ)/2 + ((1:ℝ)/2 + 0)), (2, (1:ℝ)/2 + ((1:ℝ)/2 + 0))] = _
    norm_num
  have hnorm1 : ecNormalize [(1, (1 : ℝ)), (2, (1 : ℝ))]
      = [(1, 1 / Real.sqrt 2), (2, 1 / Real.sqrt 2)] := by
    unfold ecNormalize ecNorm
    have hsum : ((1 : ℝ) ^ 2 + ((1 : ℝ) ^ 2 + 0)) = 2 := by norm_num
    simp only [List.map_cons, List.map_nil, List.sum_cons, List.sum_nil, hsum]
    rw [if_neg hs2]
  have hsq : (1 / Real.sqrt 2) ^ 2 = 1 / 2 := by
    rw [div_pow, one_pow, Real.sq_sqrt (by norm_num : (0 : ℝ) ≤ 2)]
  have hnorm2 : ecNormalize (ecSpread g2 [(1, 1 / Real.sqrt 2), (2, 1 / Real.sqrt 2)])
      = [(1, 1 / Real.sqrt 2), (2, 1 / Real.sqrt 2)] := by
    have hs : ecSpread g2 [(1, 1 / Real.sqrt 2), (2, 1 / Real.sqrt 2)]
        = [(1, 1 / Real.sqrt 2 + (1 / Real.sqrt 2 + 0)),
           (2, 1 / Real.sqrt 2 + (1 / Real.sqrt 2 + 0))] := by
      unfold ecSpread
      rfl
    rw [hs]
    unfold ecNormalize ecNorm
    have hsum : ((1 / Real.sqrt 2 + (1 / Real.sqrt 2 + 0)) ^ 2
        + ((1 / Real.sqrt 2 + (1 / Real.sqrt 2 + 0)) ^ 2 + 0)) = 4 := by
      rw [add_zero, add_zero]
      have : (1 / Real.sqrt 2 + 1 / Real.sqrt 2) ^ 2
          = 4 * (1 / Real.sqrt 2) ^ 2 := by ring
      rw [this, hsq]
      norm_num
    simp only [List.map_cons, List.map_nil, List.sum_cons, List.sum_nil, hsum]
    have h42 : Real.sqrt 4 = 2 := by
      rw [show (4 : ℝ) = 2 ^ 2 by norm_num, Real.sqrt_sq (by norm_num : (0 : ℝ) ≤ 2)]
    rw [h42, if_neg (by norm_num)]
    have hv : (1 / Real.sqrt 2 + (1 / Real.sqrt 2 + 0)) / 2 = 1 / Real.sqrt 2 := by
      ring
    rw [hv]
  have hdiff1 : ¬ (ecDiff [(1, 1 / Real.sqrt 2), (2, 1 / Real.sqrt 2)]
      [(1, (1 : ℝ) / 2), (2, (1 : ℝ) / 2)]
        < (g2.nodes.length : ℝ) * (1 / 1000000)) := by
    have hgt : (1 : ℝ) / 2 < 1 / Real.sqrt 2 := by
      rw [div_lt_div_iff (by norm_num) hs2pos]
      have hlt2 : Real.sqrt 2 < 2 := by
        nlinarith [Real.sq_sqrt (show (0 : ℝ) ≤ 2 by norm_num),
          Real.sqrt_nonneg 2]
      linarith
    have habs : |1 / Real.sqrt 2 - (1 : ℝ) / 2| = 1 / Real.sqrt 2 - 1 / 2 :=
      abs_of_pos (by linarith)
    have hd : ecDiff [(1, 1 / Real.sqrt 2), (2, 1 / Real.sqrt 2)]
        [(1, (1 : ℝ) / 2), (2, (1 : ℝ) / 2)]
          = 2 * (1 / Real.sqrt 2 - 1 / 2) := by
      unfold ecDiff
      show |1 / Real.sqrt 2 - (1:ℝ)/2| + (|1 / Real.sqrt 2 - (1:ℝ)/2| + 0) = _
      rw [habs]
      ring
    rw [hd, hlen]
    have hlow : (1 : ℝ) + 1 / 250000 ≤ Real.sqrt 2 := by
      rw [Real.le_sqrt (by norm_num) (by norm_num)]
      norm_num
    have hinv : 1 / Real.sqrt 2 = Real.sqrt 2 / 2 := by
      rw [div_eq_div_iff hs2 (by norm_num), one_mul]
      exact (Real.mul_self_sqrt (by norm_num : (0 : ℝ) ≤ 2)).symm
    rw [hinv]
    push_cast
    rw [not_lt]
    linarith
  have hdiffself : ecDiff [(1, 1 / Real.sqrt 2), (2, 1 / Real.sqrt 2)]
      [(1, 1 / Real.sqrt 2), (2, 1 / Real.sqrt 2)] = 0 := by
    simp [ecDiff]
  unfold eigenvector_centrality
  rw [if_neg (by rw [hlen]; norm_num), hinit]
  rw [show (100 : ℕ) = 99 + 1 from rfl, ecLoop_succ, hspread1, hnorm1]
  rw [if_neg hdiff1]
  rw [show (99 : ℕ) = 98 + 1 from rfl, ecLoop_succ, hnorm2]
  rw [if_pos (by rw [hdiffself, hlen]; norm_num)]

theorem edges_single {g : Graph} {n : ℕ} (hwf : g.WF) (hnodes : g.nodes = [n]) :
    g.edges = [] ∨ g.edges = [(n, n)] := by
  have hmem : ∀ e ∈ g.edges, e = (n, n) := by
    rintro ⟨a, b⟩ he
    have h2 := hwf.2.2 _ he
    rw [hnodes] at h2
    obtain ⟨h1', h2'⟩ := h2
    simp only [List.mem_singleton] at h1' h2'
    rw [h1', h2']
  cases hE : g.edges with
  | nil => exact Or.inl rfl
  | cons e rest =>
      right
      have hnd := hwf.2.1
      rw [hE] at hnd
      have he : e = (n, n) := hmem e (by rw [hE]; simp)
      have hrest : rest = [] := by
        cases rest with
        | nil => rfl
        | cons e2 r2 =>
            have he2 : e2 = (n, n) := hmem e2 (by rw [hE]; simp)
            rw [he, he2] at hnd
            simp at hnd
      rw [he, hrest]

theorem dc_single {g : Graph} {n : ℕ} (hnodes : g.nodes = [n]) :
    degree_centrality g = [(n, (1 : ℚ))] := by
  unfold degree_centrality
  rw [hnodes]
  simp

theorem bc_single {g : Graph} {n : ℕ} (hnodes : g.nodes = [n]) :
    betweenness_centrality g = [(n, (0 : ℚ))] := by
  unfold betweenness_centrality bcRaw
  rw [hnodes]
  simp

/-- Full evaluation of the centrality pipeline on a single-node graph: no
error is raised and every centrality of the node is defined (degree 1,
betweenness 0, eigenvector 1). -/
theorem calc_single_node (g : Graph) (n : ℕ) (l : List ℕ) (hwf : g.WF)
    (hnodes : g.nodes = [n]) (hall : ∀ k ∈ l, k = n) (hlne : l ≠ []) :
    calculate_centralities_negative_nodes g l
      = .ok ⟨[(n, (1 : ℚ))], [(n, (0 : ℚ))], [(n, (1 : ℝ))]⟩ := by
  have hec := ec_single g n hnodes (edges_single hwf hnodes)
  have hdc := dc_single hnodes
  have hbc := bc_single hnodes
  have h1 := pyDictComp_single n (1 : ℚ) l hall hlne
  have h0 := pyDictComp_single n (0 : ℚ) l hall hlne
  have h1r := pyDictComp_single n (1 : ℝ) l hall hlne
  unfold calculate_centralities_negative_nodes
  rw [hec, hdc, hbc]
  simp only [except_bind_ok, h1, h0, h1r]
  rfl

/-- On the empty graph the pipeline raises `NetworkXPointlessConcept` from
`nx.eigenvector_centrality`, before any filtering happens. -/
theorem calc_empty (g : Graph) (l : List ℕ) (hempty : g.nodes = []) :
    calculate_centralities_negative_nodes g l
      = .error .networkXPointlessConcept := by
  have hec : eigenvector_centrality g = .error .networkXPointlessConcept := by
    unfold eigenvector_centrality
    rw [if_pos (by rw [hempty]; rfl)]
  unfold calculate_centralities_negative_nodes
  rw [hec]
  rfl

theorem calc_g1 : calculate_centralities_negative_nodes g1 [1]
    = .ok ⟨[(1, (1 : ℚ))], [(1, (0 : ℚ))], [(1, (1 : ℝ))]⟩ :=
  calc_single_node g1 1 [1] (by decide) rfl (by decide) (by simp)

theorem calc_g2 : calculate_centralities_negative_nodes g2 [1]
    = .ok ⟨[(1, (2 : ℚ))], [(1, (0 : ℚ))], [(1, 1 / Real.sqrt 2)]⟩ := by
  have hdc : degree_centrality g2 = [(1, (2 : ℚ)), (2, (2 : ℚ))] := by
    unfold degree_centrality deg inDeg outDeg
    norm_num [g2]
  have hbc : betweenness_centrality g2 = [(1, (0 : ℚ)), (2, (0 : ℚ))] := by
    unfold betweenness_centrality bcRaw
    norm_num [g2]
  unfold calculate_centralities_negative_nodes
  rw [ec_g2, hdc, hbc]
  simp only [except_bind_ok]
  rfl

/-! ### Degree bounds (claim C2) -/

theorem inDeg_le (g : Graph) (hwf : g.WF) (v : ℕ) :
    inDeg g v ≤ g.nodes.length := by
  unfold inDeg
  have hnd : (g.edges.filter (fun e => e.2 = v)).Nodup := hwf.2.1.filter _
  have hmapnd : ((g.edges.filter (fun e => e.2 = v)).map Prod.fst).Nodup := by
    refine List.Nodup.map_on ?_ hnd
    rintro ⟨x1, x2⟩ hx ⟨y1, y2⟩ hy hxy
    have hx2 : x2 = v := by simpa using (List.mem_filter.mp hx).2
    have hy2 : y2 = v := by simpa using (List.mem_filter.mp hy).2
    simp only at hxy
    rw [hxy, hx2, hy2]
  have hsub : ((g.edges.filter (fun e => e.2 = v)).map Prod.fst) ⊆ g.nodes := by
    intro a ha
    obtain ⟨e, he, rfl⟩ := List.mem_map.mp ha
    exact (hwf.2.2 e (List.mem_filter.mp he).1).1
  have hle := (List.subperm_of_subset hmapnd hsub).length_le
  rw [List.length_map] at hle
  exact hle

theorem outDeg_le (g : Graph) (hwf : g.WF) (v : ℕ) :
    outDeg g v ≤ g.nodes.length := by
  unfold outDeg
  have hnd : (g.edges.filter (fun e => e.1 = v)).Nodup := hwf.2.1.filter _
  have hmapnd : ((g.edges.filter (fun e => e.1 = v)).map Prod.snd).Nodup := by
    refine List.Nodup.map_on ?_ hnd
    rintro ⟨x1, x2⟩ hx ⟨y1, y2⟩ hy hxy
    have hx1 : x1 = v := by simpa using (List.mem_filter.mp hx).2
    have hy1 : y1 = v := by simpa using (List.mem_filter.mp hy).2
    simp only at hxy
    rw [hxy, hx1, hy1]
  have hsub : ((g.edges.filter (fun e => e.1 = v)).map Prod.snd) ⊆ g.nodes := by
    intro a ha
    obtain ⟨e, he, rfl⟩ := List.mem_map.mp ha
    exact (hwf.2.2 e (List.mem_filter.mp he).1).2
  have hle := (List.subperm_of_subset hmapnd hsub).length_le
  rw [List.length_map] at hle
  exact hle

theorem deg_le (g : Graph) (hwf : g.WF) (v : ℕ) :
    deg g v ≤ 2 * g.nodes.length := by
  have h1 := inDeg_le g hwf v
  have h2 := outDeg_le g hwf v
  unfold deg
  omega

/-! ### Claim theorems: C2, C9, C10 -/

/-- C2 counterexample: on the two-node graph with edges 1→2 and 2→1 (two
nodes, so the claim's size hypothesis holds), the call returns and the degree
centrality of node 1 is 2, which is not in [0, 1]: a DiGraph degree is
in-degree plus out-degree, so `nx.degree_centrality` is not bounded by 1. -/
theorem C2_counterexample_value_two :
    calculate_centralities_negative_nodes g2 [1]
      = .ok ⟨[(1, (2 : ℚ))], [(1, (0 : ℚ))], [(1, 1 / Real.sqrt 2)]⟩ ∧
    1 < g2.nodes.length ∧ ¬ ((2 : ℚ) ≤ 1) :=
  ⟨calc_g2, by decide, by norm_num⟩

/-- C2 amended: for every well-formed graph with more than one node, every
degree-centrality value returned by `calculate_centralities_negative_nodes`
lies in [0, 2·|V|/(|V|−1)] — nonnegative, but bounded by 2·|V|/(|V|−1)
rather than 1, since a DiGraph degree sums in- and out-degree (each at most
|V|, self-loops included). -/
theorem C2_degree_centrality_bounded (g : Graph) (l : List ℕ) (c : Centralities)
    (hwf : g.WF) (hn : 1 < g.nodes.length)
    (hok : calculate_centralities_negative_nodes g l = .ok c) :
    ∀ p ∈ c.degree_centrality,
      0 ≤ p.2 ∧ p.2 ≤ 2 * (g.nodes.length : ℚ) / ((g.nodes.length : ℚ) - 1) := by
  obtain ⟨-, hdcf, -⟩ := calc_ok_inv hok
  intro p hp
  have hpm : p ∈ degree_centrality g := pyDictComp_mem hdcf p hp
  unfold degree_centrality at hpm
  rw [if_neg (by omega)] at hpm
  obtain ⟨v, hv, rfl⟩ := List.mem_map.mp hpm
  have hden : (0 : ℚ) < (g.nodes.length : ℚ) - 1 := by
    have : (1 : ℚ) < (g.nodes.length : ℚ) := by exact_mod_cast hn
    linarith
  constructor
  · exact div_nonneg (by positivity) (le_of_lt hden)
  · show (deg g v : ℚ) / ((g.nodes.length : ℚ) - 1)
        ≤ 2 * (g.nodes.length : ℚ) / ((g.nodes.length : ℚ) - 1)
    rw [div_le_div_iff hden hden]
    have hnum : (deg g v : ℚ) ≤ 2 * (g.nodes.length : ℚ) := by
      exact_mod_cast deg_le g hwf v
    exact mul_le_mul_of_nonneg_right hnum (le_of_lt hden)

/-- C2 witness: the amended bound applied at the two-node two-cycle, where
the degree-centrality value 2 meets the bound 2·2/(2−1) = 4. -/
theorem C2_degree_centrality_bounded_witness :
    0 ≤ ((1, (2 : ℚ)) : ℕ × ℚ).2 ∧
    ((1, (2 : ℚ)) : ℕ × ℚ).2
      ≤ 2 * (g2.nodes.length : ℚ) / ((g2.nodes.length : ℚ) - 1) :=
  C2_degree_centrality_bounded g2 [1]
    ⟨[(1, (2 : ℚ))], [(1, (0 : ℚ))], [(1, 1 / Real.sqrt 2)]⟩
    (by decide) (by decide) calc_g2 (1, (2 : ℚ)) (by simp)

/-- C9 counterexample: on a single-node graph the call returns values (degree
centrality 1 for the node, per the networkx `len(G) <= 1` convention) —
no `DegenerateGraphError` is raised; indeed no such error exists in the
code. -/
theorem C9_counterexample_single_node_returns :
    calculate_centralities_negative_nodes g1 [1]
      = .ok ⟨[(1, (1 : ℚ))], [(1, (0 : ℚ))], [(1, (1 : ℝ))]⟩ ∧
    g1.nodes.length ≤ 1 :=
  ⟨calc_g1, by decide⟩

/-- C9 amended: for a well-formed graph with at most one node and a negative
list contained in its nodes, requesting centralities does not raise any
degenerate-graph error: on a one-node graph the call succeeds and degree
centrality maps the node to 1; only the empty graph fails, and then with
`NetworkXPointlessConcept` raised by `nx.eigenvector_centrality`, not by
degree centrality. -/
theorem C9_small_graph_no_degenerate_error (g : Graph) (l : List ℕ)
    (hwf : g.WF) (hsub : ∀ k ∈ l, k ∈ g.nodes) :
    (g.nodes = [] →
      calculate_centralities_negative_nodes g l
        = .error .networkXPointlessConcept) ∧
    (∀ n, g.nodes = [n] → l ≠ [] →
      calculate_centralities_negative_nodes g l
        = .ok ⟨[(n, (1 : ℚ))], [(n, (0 : ℚ))], [(n, (1 : ℝ))]⟩) := by
  constructor
  · intro hempty
    exact calc_empty g l hempty
  · intro n hnodes hlne
    refine calc_single_node g n l hwf hnodes ?_ hlne
    intro k hk
    have hkn := hsub k hk
    rw [hnodes] at hkn
    simpa using hkn

/-- C9 witness: the amended theorem applied at the one-node graph with
negative list [1]. -/
theorem C9_small_graph_no_degenerate_error_witness :
    calculate_centralities_negative_nodes g1 [1]
      = .ok ⟨[(1, (1 : ℚ))], [(1, (0 : ℚ))], [(1, (1 : ℝ))]⟩ :=
  (C9_small_graph_no_degenerate_error g1 [1] (by decide) (by decide)).2 1 rfl
    (by simp)

/-- C10: whenever `calculate_centralities_negative_nodes` returns (with the
negative list contained in the graph's nodes), the key set of each of the
three returned maps is exactly the set of ids in the negative list. -/
theorem C10_filtered_key_sets (g : Graph) (l : List ℕ) (c : Centralities)
    (hsub : ∀ k ∈ l, k ∈ g.nodes)
    (hok : calculate_centralities_negative_nodes g l = .ok c) :
    ∀ k : ℕ,
      (k ∈ c.degree_centrality.map Prod.fst ↔ k ∈ l) ∧
      (k ∈ c.betweenness_centrality.map Prod.fst ↔ k ∈ l) ∧
      (k ∈ c.eigenvector_centrality.map Prod.fst ↔ k ∈ l) := by
  obtain ⟨⟨ev, hev, hecf⟩, hdcf, hbcf⟩ := calc_ok_inv hok
  intro k
  exact ⟨pyDictComp_keys hdcf k, pyDictComp_keys hbcf k, pyDictComp_keys hecf k⟩

/-- C10 witness: the theorem applied at the one-node graph, list [1] and the
record computed there, instantiated at the key 1. -/
theorem C10_filtered_key_sets_witness :
    ((1 : ℕ) ∈ ([(1, (1 : ℚ))].map Prod.fst) ↔ (1 : ℕ) ∈ [1]) ∧
    ((1 : ℕ) ∈ ([(1, (0 : ℚ))].map Prod.fst) ↔ (1 : ℕ) ∈ [1]) ∧
    ((1 : ℕ) ∈ ([(1, (1 : ℝ))].map Prod.fst) ↔ (1 : ℕ) ∈ [1]) :=
  C10_filtered_key_sets g1 [1]
    ⟨[(1, (1 : ℚ))], [(1, (0 : ℚ))], [(1, (1 : ℝ))]⟩ (by decide) calc_g1 1

end BitcoinTrust
